import Mathlib

/-!
Verification of the SimpleLogger repository (src/Logger.cpp).

The development shallowly embeds the program:

* `LogLevel`, `Logger.levelToString`, `Logger.getCurrentTime`, `Logger.log`
  and the severity wrappers are translated from the corresponding C++
  functions; machine strings become `List Char`, the wall clock becomes an
  explicit `Tm` argument, and the logger's streams become explicit fields of
  a `LoggerState` record.
* Concurrency (the mutex in `Logger::log` and the worker threads of `main`)
  is modelled by a small-step interleaving machine `Sys`/`Act`/`execStep`
  in which each accepted call acquires the lock, writes its line to the
  console sink byte by byte, then to the file sink byte by byte, and
  releases the lock; a filtered call is a single `skip` action touching
  nothing, matching the early return before the lock scope.
-/

/-- The `LogLevel` enum class of the source: DEBUG, INFO, WARNING, ERROR,
CRITICAL, with underlying values 0..4. -/
inductive LogLevel : Type
  | DEBUG : LogLevel
  | INFO : LogLevel
  | WARNING : LogLevel
  | ERROR : LogLevel
  | CRITICAL : LogLevel
deriving DecidableEq, Repr, Fintype

/-- The underlying integer value of a `LogLevel` enumerator (the C++ enum
assigns 0,1,2,3,4 in declaration order). -/
def LogLevel.toNat : LogLevel → Nat
  | .DEBUG => 0
  | .INFO => 1
  | .WARNING => 2
  | .ERROR => 3
  | .CRITICAL => 4

/-- The comparison `level < minimumLevel` performed by `Logger::log`: for a
scoped enum C++ compares the underlying integer values. -/
def LogLevel.lt (a b : LogLevel) : Prop := a.toNat < b.toNat

instance (a b : LogLevel) : Decidable (LogLevel.lt a b) :=
  Nat.decLt a.toNat b.toNat

instance : LT LogLevel := ⟨LogLevel.lt⟩

instance (a b : LogLevel) : Decidable (a < b) :=
  Nat.decLt a.toNat b.toNat

/-- The switch statement of `Logger::levelToString`, keyed on the underlying
value of the enumerator; the `default` arm returns "UNKNOWN". -/
def levelToStringSwitch (v : Nat) : List Char :=
  match v with
  | 0 => "DEBUG".data
  | 1 => "INFO".data
  | 2 => "WARNING".data
  | 3 => "ERROR".data
  | 4 => "CRITICAL".data
  | _ => "UNKNOWN".data

/-- `Logger::levelToString`. -/
def levelToString (level : LogLevel) : List Char :=
  levelToStringSwitch level.toNat

/-- One decimal digit character; used to model the decimal rendering done by
`std::put_time` / `operator<<` on a `std::stringstream`. -/
def digitChar (n : Nat) : Char :=
  match n % 10 with
  | 0 => '0'
  | 1 => '1'
  | 2 => '2'
  | 3 => '3'
  | 4 => '4'
  | 5 => '5'
  | 6 => '6'
  | 7 => '7'
  | 8 => '8'
  | _ => '9'

/-- Fuel-driven worker for `natChars`; `fuel` bounds the number of digits so
that the recursion is structural. -/
def natCharsAux : Nat → Nat → List Char
  | 0, _ => []
  | fuel + 1, n =>
    if n < 10 then [digitChar n]
    else natCharsAux fuel (n / 10) ++ [digitChar n]

/-- Unpadded decimal rendering of a natural number (the `%Y` field of
`std::put_time` prints the year with no padding). -/
def natChars (n : Nat) : List Char :=
  natCharsAux (n + 1) n

/-- Two-digit zero-padded decimal rendering (the `%m`, `%d`, `%H`, `%M`,
`%S` fields of `std::put_time` are zero-padded to width 2; `localtime`
only produces values below 100 for them). -/
def pad2 (n : Nat) : List Char :=
  [digitChar (n / 10), digitChar n]

/-- A broken-down local time as displayed by `std::put_time`: the fields are
the calendar values (month 1..12, 24-hour clock) that `%Y`, `%m`, `%d`,
`%H`, `%M`, `%S` print. -/
structure Tm : Type where
  year : Nat
  month : Nat
  day : Nat
  hour : Nat
  minute : Nat
  sec : Nat
deriving DecidableEq, Repr

/-- `Logger::getCurrentTime`: renders the wall-clock reading with the format
string "%Y-%m-%d %X", where `%X` in the default "C" locale is
"%H:%M:%S". The wall-clock reading is passed explicitly as `now`. -/
def getCurrentTime (now : Tm) : List Char :=
  natChars now.year ++ '-' :: pad2 now.month ++ '-' :: pad2 now.day
    ++ ' ' :: pad2 now.hour ++ ':' :: pad2 now.minute ++ ':' :: pad2 now.sec

/-- The `logEntry` string built inside `Logger::log`:
"[" + getCurrentTime() + "]" + "[" + levelToString(level) + "]" + message. -/
def logEntry (now : Tm) (level : LogLevel) (message : List Char) : List Char :=
  "[".data ++ getCurrentTime now ++ "]".data ++ "[".data
    ++ levelToString level ++ "]".data ++ message

/-- The observable state of one `Logger` object together with its three
streams: `minimumLevel` and the open/closed status of `logfile` are the
object's fields; `fileContents` is the backing file of the file sink,
`console` the bytes written to `std::cout`, and `cerr` the bytes written
to `std::cerr`. -/
structure LoggerState : Type where
  minimumLevel : LogLevel
  fileIsOpen : Bool
  fileContents : List Char
  console : List Char
  cerr : List Char
deriving DecidableEq, Repr

/-- The `Logger` constructor: it stores `minLevel`, opens `filename` with
flags `std::ios::out | std::ios::app` (append: a pre-existing file's
bytes `existing` are kept untouched), and on open failure writes one
diagnostic line to `std::cerr`. `openOk` is the outcome of the open
attempt, decided by the environment. -/
def mkLogger (openOk : Bool) (existing : List Char) (minLevel : LogLevel)
    (filename : List Char) : LoggerState :=
  { minimumLevel := minLevel
    fileIsOpen := openOk
    fileContents := existing
    console := []
    cerr := if openOk then []
      else "Failed to open the log file : ".data ++ filename ++ ['\n'] }

/-- `Logger::log`: returns unchanged state when `level < minimumLevel`;
otherwise appends the formatted entry plus `std::endl` to the console,
and also to the file when it is open. -/
def Logger.log (st : LoggerState) (now : Tm) (level : LogLevel)
    (message : List Char) : LoggerState :=
  if LogLevel.lt level st.minimumLevel then st
  else
    let entry := logEntry now level message
    { st with
      console := st.console ++ entry ++ ['\n']
      fileContents := if st.fileIsOpen then st.fileContents ++ entry ++ ['\n']
        else st.fileContents }

/-- `Logger::debug`. -/
def Logger.debug (st : LoggerState) (now : Tm) (message : List Char) : LoggerState :=
  Logger.log st now LogLevel.DEBUG message

/-- `Logger::info`. -/
def Logger.info (st : LoggerState) (now : Tm) (message : List Char) : LoggerState :=
  Logger.log st now LogLevel.INFO message

/-- `Logger::warning`. -/
def Logger.warning (st : LoggerState) (now : Tm) (message : List Char) : LoggerState :=
  Logger.log st now LogLevel.WARNING message

/-- `Logger::error`. -/
def Logger.error (st : LoggerState) (now : Tm) (message : List Char) : LoggerState :=
  Logger.log st now LogLevel.ERROR message

/-- `Logger::critical`. -/
def Logger.critical (st : LoggerState) (now : Tm) (message : List Char) : LoggerState :=
  Logger.log st now LogLevel.CRITICAL message

/-- The `Logger` destructor: closes the file if it is open. -/
def Logger.destroy (st : LoggerState) : LoggerState :=
  { st with fileIsOpen := false }

/-- Running a sequence of `log` calls, each with the wall-clock reading
observed at that call. -/
def runLogs (st : LoggerState) : List (Tm × LogLevel × List Char) → LoggerState
  | [] => st
  | (now, level, msg) :: rest => runLogs (Logger.log st now level msg) rest

/-- The bytes a sequence of `log` calls appends to a sink that receives
every accepted entry (used to describe both sinks). -/
def emitted (minLevel : LogLevel) : List (Tm × LogLevel × List Char) → List Char
  | [] => []
  | (now, level, msg) :: rest =>
    (if LogLevel.lt level minLevel then []
      else logEntry now level msg ++ ['\n']) ++ emitted minLevel rest

/-- One accepted logging call as it enters the critical section: the
wall-clock reading captured under the lock, the severity, the message. -/
structure Entry : Type where
  time : Tm
  level : LogLevel
  msg : List Char
deriving DecidableEq, Repr

/-- The full byte sequence an entry contributes to each sink: the formatted
line plus the newline of `std::endl`. -/
def Entry.line (e : Entry) : List Char :=
  logEntry e.time e.level e.msg ++ ['\n']

/-- The severity/message pair of an entry (the call arguments). -/
def Entry.pair (e : Entry) : LogLevel × List Char :=
  (e.level, e.msg)

/-- Where a worker thread is inside `Logger::log`: outside the lock scope
(`idle`), or holding the mutex while copying its line byte by byte to the
console sink (`wCon`) or to the file sink (`wFile`). `written ++ rest` is
the whole line of the entry being emitted. -/
inductive Phase : Type
  | idle : Phase
  | wCon (written rest : List Char) (e : Entry) : Phase
  | wFile (written rest : List Char) (e : Entry) : Phase
deriving DecidableEq, Repr

/-- Whether a phase is the file-writing phase. -/
def Phase.isWF : Phase → Bool
  | .wFile _ _ _ => true
  | _ => false

/-- The console bytes already written for the in-progress line of a phase. -/
def Phase.conPart : Phase → List Char
  | .wCon w _ _ => w
  | _ => []

/-- The file bytes already written for the in-progress line of a phase. -/
def Phase.filePart : Phase → List Char
  | .wFile w _ _ => w
  | _ => []

/-- One worker thread: its position inside `log` plus the list of
(severity, message) calls it has not yet issued. -/
structure Worker : Type where
  phase : Phase
  pending : List (LogLevel × List Char)
deriving DecidableEq, Repr

/-- The shared state: the mutex `logMutex` (holding the id of the owner, if
any), the two sinks, and all worker threads. -/
structure Sys : Type where
  lock : Option Nat
  console : List Char
  file : List Char
  workers : List Worker
deriving DecidableEq, Repr

/-- Interleaving actions: `skip` is the early return of a filtered call (no
lock, no write); `acquire` enters the lock scope and formats the line with
the wall-clock value read at that moment; `putc`/`putf` emit one byte to
the console/file sink; `tofile` switches from the console write to the
file write (file open); `release` leaves the lock scope. -/
inductive Act : Type
  | skip (t : Nat) : Act
  | acquire (t : Nat) (now : Tm) : Act
  | putc (t : Nat) : Act
  | tofile (t : Nat) : Act
  | putf (t : Nat) : Act
  | release (t : Nat) : Act
deriving DecidableEq, Repr

/-- Replace worker `t`. -/
def setWorker (s : Sys) (t : Nat) (w : Worker) : Sys :=
  { s with workers := s.workers.set t w }

/-- One small step of the machine, or `none` when the action is not enabled.
`minLevel` and `fileOpen` are the logger fields, fixed for the run. -/
def execStep (minLevel : LogLevel) (fileOpen : Bool) (s : Sys) : Act → Option Sys
  | .skip t =>
    match s.workers[t]? with
    | some ⟨Phase.idle, (level, msg) :: ps⟩ =>
      if LogLevel.lt level minLevel then some (setWorker s t ⟨Phase.idle, ps⟩)
      else none
    | _ => none
  | .acquire t now =>
    match s.lock, s.workers[t]? with
    | none, some ⟨Phase.idle, (level, msg) :: ps⟩ =>
      if LogLevel.lt level minLevel then none
      else
        some { setWorker s t
          ⟨Phase.wCon [] (Entry.line ⟨now, level, msg⟩) ⟨now, level, msg⟩, ps⟩
          with lock := some t }
    | _, _ => none
  | .putc t =>
    match s.workers[t]? with
    | some ⟨Phase.wCon w (c :: r) e, ps⟩ =>
      some { setWorker s t ⟨Phase.wCon (w ++ [c]) r e, ps⟩
        with console := s.console ++ [c] }
    | _ => none
  | .tofile t =>
    match s.workers[t]? with
    | some ⟨Phase.wCon w [] e, ps⟩ =>
      if fileOpen then some (setWorker s t ⟨Phase.wFile [] (Entry.line e) e, ps⟩)
      else none
    | _ => none
  | .putf t =>
    match s.workers[t]? with
    | some ⟨Phase.wFile w (c :: r) e, ps⟩ =>
      some { setWorker s t ⟨Phase.wFile (w ++ [c]) r e, ps⟩
        with file := s.file ++ [c] }
    | _ => none
  | .release t =>
    match s.workers[t]? with
    | some ⟨Phase.wCon w [] e, ps⟩ =>
      if fileOpen then none
      else some { setWorker s t ⟨Phase.idle, ps⟩ with lock := none }
    | some ⟨Phase.wFile w [] e, ps⟩ =>
      some { setWorker s t ⟨Phase.idle, ps⟩ with lock := none }
    | _ => none

/-- Run a whole interleaving. -/
def execTrace (minLevel : LogLevel) (fileOpen : Bool) : Sys → List Act → Option Sys
  | s, [] => some s
  | s, a :: tr =>
    match execStep minLevel fileOpen s a with
    | some s' => execTrace minLevel fileOpen s' tr
    | none => none

/-- All workers returned from every call: program (worker) termination. -/
def sysFinished (s : Sys) : Bool :=
  s.workers.all fun w => w.phase = Phase.idle && w.pending = []

/-- The initial shared state for a list of per-worker call sequences. -/
def sysInit (pendings : List (List (LogLevel × List Char))) : Sys :=
  { lock := none
    console := []
    file := []
    workers := pendings.map fun ps => ⟨Phase.idle, ps⟩ }

/-- The phase of the worker that holds the mutex (idle if nobody does). -/
def holderPhase (s : Sys) : Phase :=
  match s.lock with
  | none => Phase.idle
  | some t =>
    match s.workers[t]? with
    | some w => w.phase
    | none => Phase.idle

/-- The pairs of a pending list that pass the severity filter. -/
def pendingPairs (minLevel : LogLevel) (ps : List (LogLevel × List Char)) :
    Multiset (LogLevel × List Char) :=
  ↑(ps.filter fun p => decide (¬ LogLevel.lt p.1 minLevel))

/-- The accepted calls a worker still has to finish writing to the console
sink: its accepted pending calls, plus the entry currently in its console
phase. -/
def remConsole (minLevel : LogLevel) (w : Worker) : Multiset (LogLevel × List Char) :=
  match w.phase with
  | Phase.wCon _ _ e => e.pair ::ₘ pendingPairs minLevel w.pending
  | _ => pendingPairs minLevel w.pending

example : getCurrentTime ⟨2024, 1, 2, 3, 4, 5⟩ = "2024-01-02 03:04:05".data := by decide

example : logEntry ⟨2024, 1, 2, 3, 4, 5⟩ LogLevel.INFO "boot".data
    = "[2024-01-02 03:04:05][INFO]boot".data := by decide

/-! ## Basic lemmas about the functional model -/

theorem log_minimumLevel (st : LoggerState) (now : Tm) (level : LogLevel)
    (msg : List Char) : (Logger.log st now level msg).minimumLevel = st.minimumLevel := by
  unfold Logger.log
  split <;> rfl

theorem log_fileIsOpen (st : LoggerState) (now : Tm) (level : LogLevel)
    (msg : List Char) : (Logger.log st now level msg).fileIsOpen = st.fileIsOpen := by
  unfold Logger.log
  split <;> rfl

theorem log_cerr (st : LoggerState) (now : Tm) (level : LogLevel)
    (msg : List Char) : (Logger.log st now level msg).cerr = st.cerr := by
  unfold Logger.log
  split <;> rfl

theorem log_console (st : LoggerState) (now : Tm) (level : LogLevel) (msg : List Char) :
    (Logger.log st now level msg).console
      = st.console ++ (if LogLevel.lt level st.minimumLevel then []
          else logEntry now level msg ++ ['\n']) := by
  unfold Logger.log
  split <;> simp

theorem log_fileContents (st : LoggerState) (now : Tm) (level : LogLevel) (msg : List Char) :
    (Logger.log st now level msg).fileContents
      = st.fileContents ++ (if st.fileIsOpen ∧ ¬ LogLevel.lt level st.minimumLevel then
          logEntry now level msg ++ ['\n'] else []) := by
  unfold Logger.log
  split
  · rename_i h
    simp [h]
  · rename_i h
    by_cases hf : st.fileIsOpen <;> simp [h, hf]

theorem runLogs_minimumLevel (calls : List (Tm × LogLevel × List Char)) :
    ∀ st : LoggerState, (runLogs st calls).minimumLevel = st.minimumLevel := by
  induction calls with
  | nil => intro st; rfl
  | cons c rest ih =>
    intro st
    obtain ⟨now, level, msg⟩ := c
    rw [runLogs, ih, log_minimumLevel]

theorem runLogs_fileIsOpen (calls : List (Tm × LogLevel × List Char)) :
    ∀ st : LoggerState, (runLogs st calls).fileIsOpen = st.fileIsOpen := by
  induction calls with
  | nil => intro st; rfl
  | cons c rest ih =>
    intro st
    obtain ⟨now, level, msg⟩ := c
    rw [runLogs, ih, log_fileIsOpen]

theorem runLogs_cerr (calls : List (Tm × LogLevel × List Char)) :
    ∀ st : LoggerState, (runLogs st calls).cerr = st.cerr := by
  induction calls with
  | nil => intro st; rfl
  | cons c rest ih =>
    intro st
    obtain ⟨now, level, msg⟩ := c
    rw [runLogs, ih, log_cerr]

theorem runLogs_console (calls : List (Tm × LogLevel × List Char)) :
    ∀ st : LoggerState, (runLogs st calls).console
      = st.console ++ emitted st.minimumLevel calls := by
  induction calls with
  | nil => intro st; simp [runLogs, emitted]
  | cons c rest ih =>
    intro st
    obtain ⟨now, level, msg⟩ := c
    rw [runLogs, ih, emitted, log_console, log_minimumLevel, List.append_assoc]

theorem runLogs_fileContents (calls : List (Tm × LogLevel × List Char)) :
    ∀ st : LoggerState, (runLogs st calls).fileContents
      = st.fileContents ++ (if st.fileIsOpen then emitted st.minimumLevel calls else []) := by
  induction calls with
  | nil => intro st; cases st.fileIsOpen <;> simp [runLogs, emitted]
  | cons c rest ih =>
    intro st
    obtain ⟨now, level, msg⟩ := c
    rw [runLogs, ih, emitted, log_fileContents, log_minimumLevel, log_fileIsOpen]
    by_cases hf : st.fileIsOpen
    · by_cases hl : LogLevel.lt level st.minimumLevel <;>
        simp [hf, hl, List.append_assoc]
    · simp [hf]

/-! ## Lemmas about the rendered characters -/

theorem digitChar_mem (n : Nat) :
    digitChar n ∈ ['0', '1', '2', '3', '4', '5', '6', '7', '8', '9'] := by
  unfold digitChar
  rcases hk : n % 10 with _ | _ | _ | _ | _ | _ | _ | _ | _ | k <;> simp


theorem digitChar_isDigit (n : Nat) : (digitChar n).isDigit = true := by
  have h := digitChar_mem n
  simp only [List.mem_cons, List.not_mem_nil, or_false] at h
  rcases h with h | h | h | h | h | h | h | h | h | h <;> rw [h] <;> decide

theorem digitChar_ne_newline (n : Nat) : digitChar n ≠ '\n' := by
  have h := digitChar_mem n
  simp only [List.mem_cons, List.not_mem_nil, or_false] at h
  rcases h with h | h | h | h | h | h | h | h | h | h <;> rw [h] <;> decide

theorem natCharsAux_not_newline (fuel : Nat) :
    ∀ n : Nat, '\n' ∉ natCharsAux fuel n := by
  induction fuel with
  | zero => intro n; simp [natCharsAux]
  | succ fuel ih =>
    intro n
    rw [natCharsAux]
    split
    · simp [(digitChar_ne_newline n).symm]
    · simp only [List.mem_append, List.mem_singleton]
      rintro (h | h)
      · exact ih _ h
      · exact digitChar_ne_newline n h.symm

theorem natChars_not_newline (n : Nat) : '\n' ∉ natChars n :=
  natCharsAux_not_newline (n + 1) n

theorem pad2_not_newline (n : Nat) : '\n' ∉ pad2 n := by
  intro h
  simp only [pad2, List.mem_cons, List.not_mem_nil, or_false] at h
  rcases h with h | h <;> exact digitChar_ne_newline _ h.symm

theorem getCurrentTime_not_newline (now : Tm) : '\n' ∉ getCurrentTime now := by
  intro h
  simp only [getCurrentTime, List.mem_append, List.mem_cons] at h
  casesm* _ ∨ _
  all_goals first
    | exact natChars_not_newline _ ‹_›
    | exact pad2_not_newline _ ‹_›
    | exact absurd ‹_› (by decide)

theorem levelToString_not_newline (level : LogLevel) : '\n' ∉ levelToString level := by
  cases level <;> decide

theorem logEntry_not_newline (now : Tm) (level : LogLevel) (msg : List Char)
    (hmsg : '\n' ∉ msg) : '\n' ∉ logEntry now level msg := by
  intro h
  simp only [logEntry, List.mem_append] at h
  casesm* _ ∨ _
  all_goals first
    | exact getCurrentTime_not_newline _ ‹_›
    | exact levelToString_not_newline _ ‹_›
    | exact hmsg ‹_›
    | exact absurd ‹_› (by decide)

theorem line_count_newline (e : Entry) (hmsg : '\n' ∉ e.msg) :
    (Entry.line e).count '\n' = 1 := by
  rw [Entry.line, List.count_append]
  rw [List.count_eq_zero.mpr (logEntry_not_newline e.time e.level e.msg hmsg)]
  rfl

theorem natCharsAux_irrel :
    ∀ fuel1 fuel2 n : Nat, n < fuel1 → n < fuel2 →
      natCharsAux fuel1 n = natCharsAux fuel2 n := by
  intro fuel1
  induction fuel1 with
  | zero => intro fuel2 n h1 h2; omega
  | succ fuel1 ih =>
    intro fuel2 n h1 h2
    cases fuel2 with
    | zero => omega
    | succ fuel2 =>
      rw [natCharsAux, natCharsAux]
      split
      · rfl
      · rename_i hn
        have hd : n / 10 < n := Nat.div_lt_self (by omega) (by omega)
        rw [ih fuel2 (n / 10) (by omega) (by omega)]

theorem natChars_lt10 (n : Nat) (h : n < 10) : natChars n = [digitChar n] := by
  rw [natChars, natCharsAux, if_pos h]

theorem natChars_ge10 (n : Nat) (h : 10 ≤ n) :
    natChars n = natChars (n / 10) ++ [digitChar n] := by
  rw [natChars, natCharsAux, if_neg (by omega)]
  have hd : n / 10 < n := Nat.div_lt_self (by omega) (by omega)
  rw [natCharsAux_irrel n (n / 10 + 1) (n / 10) (by omega) (by omega)]
  rfl

theorem natChars_year (y : Nat) (h1 : 1000 ≤ y) (h2 : y < 10000) :
    natChars y
      = [digitChar (y / 1000), digitChar (y / 100), digitChar (y / 10), digitChar y] := by
  have e1 : y / 10 / 10 = y / 100 := by
    rw [Nat.div_div_eq_div_mul]
  have e2 : y / 100 / 10 = y / 1000 := by
    rw [Nat.div_div_eq_div_mul]
  rw [natChars_ge10 y (by omega), natChars_ge10 (y / 10) (by omega),
    natChars_ge10 (y / 10 / 10) (by omega)]
  rw [e1, e2, natChars_lt10 (y / 1000) (by omega)]
  simp

/-! ## Sample values used by the witnesses -/

/-- A sample wall-clock reading. -/
def sampleTm : Tm := ⟨2024, 1, 2, 3, 4, 5⟩

/-- A sample logger state: threshold DEBUG, file open, empty streams. -/
def sampleSt : LoggerState := ⟨LogLevel.DEBUG, true, [], [], []⟩

/-! ## Claim theorems (functional model) -/

/-- C5: each severity-named wrapper forwards to `log` with the corresponding
fixed severity and the given message, with no additional behavior: the
resulting states (hence all output bytes) are identical. -/
theorem claim_C5 (st : LoggerState) (now : Tm) (msg : List Char) :
    Logger.debug st now msg = Logger.log st now LogLevel.DEBUG msg ∧
    Logger.info st now msg = Logger.log st now LogLevel.INFO msg ∧
    Logger.warning st now msg = Logger.log st now LogLevel.WARNING msg ∧
    Logger.error st now msg = Logger.log st now LogLevel.ERROR msg ∧
    Logger.critical st now msg = Logger.log st now LogLevel.CRITICAL msg :=
  ⟨rfl, rfl, rfl, rfl, rfl⟩

/-- C10: for each of the five `LogLevel` values the rendering is exactly the
upper-case enumerator name, and the "UNKNOWN" default branch is
unreachable: no value of the enumeration renders as "UNKNOWN". -/
theorem claim_C10 :
    levelToString LogLevel.DEBUG = "DEBUG".data ∧
    levelToString LogLevel.INFO = "INFO".data ∧
    levelToString LogLevel.WARNING = "WARNING".data ∧
    levelToString LogLevel.ERROR = "ERROR".data ∧
    levelToString LogLevel.CRITICAL = "CRITICAL".data ∧
    (∀ level : LogLevel, levelToString level ≠ "UNKNOWN".data) := by
  refine ⟨rfl, rfl, rfl, rfl, rfl, ?_⟩
  intro level
  cases level <;> decide

/-- C8: `LogLevel` is totally ordered by integer rank with
DEBUG < INFO < WARNING < ERROR < CRITICAL, the comparison is rank
comparison, and this comparison alone decides filtering in `log`. -/
theorem claim_C8 :
    (LogLevel.lt LogLevel.DEBUG LogLevel.INFO ∧
     LogLevel.lt LogLevel.INFO LogLevel.WARNING ∧
     LogLevel.lt LogLevel.WARNING LogLevel.ERROR ∧
     LogLevel.lt LogLevel.ERROR LogLevel.CRITICAL) ∧
    (∀ a b : LogLevel, LogLevel.lt a b ↔ a.toNat < b.toNat) ∧
    (∀ a b : LogLevel, a < b ↔ LogLevel.lt a b) ∧
    (∀ a b : LogLevel, LogLevel.lt a b ∨ a = b ∨ LogLevel.lt b a) ∧
    (∀ a b : LogLevel, ¬ (LogLevel.lt a b ∧ LogLevel.lt b a)) ∧
    (∀ (st : LoggerState) (now : Tm) (level : LogLevel) (msg : List Char),
      LogLevel.lt level st.minimumLevel → Logger.log st now level msg = st) ∧
    (∀ (st : LoggerState) (now : Tm) (level : LogLevel) (msg : List Char),
      ¬ LogLevel.lt level st.minimumLevel →
        (Logger.log st now level msg).console ≠ st.console) := by
  refine ⟨by decide, by decide, fun a b => Iff.rfl, by decide, by decide, ?_, ?_⟩
  · intro st now level msg h
    rw [Logger.log, if_pos h]
  · intro st now level msg h heq
    rw [log_console, if_neg h] at heq
    have hlen := congrArg List.length heq
    simp [List.length_append] at hlen

/-- C2: `log` writes one line to the console (and to the file when open) iff
the severity passes the threshold; a filtered call leaves the state
untouched, and in the interleaving machine it is a `skip` action that
leaves the lock and both sinks unchanged, while `acquire` (the entry into
the critical section, where the timestamp is read) is not enabled for it. -/
theorem claim_C2 (st : LoggerState) (now : Tm) (level : LogLevel) (msg : List Char) :
    (LogLevel.lt level st.minimumLevel → Logger.log st now level msg = st) ∧
    (¬ LogLevel.lt level st.minimumLevel →
      (Logger.log st now level msg).console
          = st.console ++ (logEntry now level msg ++ ['\n']) ∧
      (st.fileIsOpen = true →
        (Logger.log st now level msg).fileContents
          = st.fileContents ++ (logEntry now level msg ++ ['\n'])) ∧
      (st.fileIsOpen = false →
        (Logger.log st now level msg).fileContents = st.fileContents)) ∧
    (((Logger.log st now level msg).console = st.console ∧
      (Logger.log st now level msg).fileContents = st.fileContents)
        ↔ LogLevel.lt level st.minimumLevel) ∧
    (∀ (fileOpen : Bool) (s s' : Sys) (t : Nat),
      execStep st.minimumLevel fileOpen s (Act.skip t) = some s' →
        s'.lock = s.lock ∧ s'.console = s.console ∧ s'.file = s.file) ∧
    (∀ (fileOpen : Bool) (s : Sys) (t : Nat) (ps : List (LogLevel × List Char)),
      s.workers[t]? = some ⟨Phase.idle, (level, msg) :: ps⟩ →
      LogLevel.lt level st.minimumLevel →
        execStep st.minimumLevel fileOpen s (Act.acquire t now) = none) := by
  refine ⟨?_, ?_, ?_, ?_, ?_⟩
  · intro h
    rw [Logger.log, if_pos h]
  · intro h
    refine ⟨?_, ?_, ?_⟩
    · rw [log_console, if_neg h]
    · intro hf
      rw [log_fileContents]
      simp [hf, h]
    · intro hf
      rw [log_fileContents]
      simp [hf]
  · constructor
    · rintro ⟨hc, _⟩
      by_contra h
      rw [log_console, if_neg h] at hc
      have hlen := congrArg List.length hc
      simp [List.length_append] at hlen
    · intro h
      rw [Logger.log, if_pos h]
      exact ⟨rfl, rfl⟩
  · intro fileOpen s s' t hstep
    rw [execStep] at hstep
    split at hstep
    · split at hstep
      · obtain rfl := Option.some.inj hstep
        exact ⟨rfl, rfl, rfl⟩
      · exact absurd hstep (by simp)
    · exact absurd hstep (by simp)
  · intro fileOpen s t ps hw h
    rw [execStep]
    cases hl : s.lock with
    | none => rw [hw]; simp [h]
    | some u => simp

/-- C6: a logger is always in one of the two states `fileIsOpen = true`
(FileOpen) or `fileIsOpen = false` (FileUnavailable); the state and the
minimum-severity threshold are fixed at construction and preserved by
`log`, by every wrapper, and by any sequence of log calls. -/
theorem claim_C6 (st : LoggerState) (now : Tm) (level : LogLevel) (msg : List Char)
    (calls : List (Tm × LogLevel × List Char)) (openOk : Bool)
    (existing : List Char) (minLevel : LogLevel) (fn : List Char) :
    (st.fileIsOpen = true ∨ st.fileIsOpen = false) ∧
    ((Logger.log st now level msg).fileIsOpen = st.fileIsOpen ∧
     (Logger.log st now level msg).minimumLevel = st.minimumLevel) ∧
    ((Logger.debug st now msg).fileIsOpen = st.fileIsOpen ∧
     (Logger.debug st now msg).minimumLevel = st.minimumLevel) ∧
    ((Logger.info st now msg).fileIsOpen = st.fileIsOpen ∧
     (Logger.info st now msg).minimumLevel = st.minimumLevel) ∧
    ((Logger.warning st now msg).fileIsOpen = st.fileIsOpen ∧
     (Logger.warning st now msg).minimumLevel = st.minimumLevel) ∧
    ((Logger.error st now msg).fileIsOpen = st.fileIsOpen ∧
     (Logger.error st now msg).minimumLevel = st.minimumLevel) ∧
    ((Logger.critical st now msg).fileIsOpen = st.fileIsOpen ∧
     (Logger.critical st now msg).minimumLevel = st.minimumLevel) ∧
    ((runLogs st calls).fileIsOpen = st.fileIsOpen ∧
     (runLogs st calls).minimumLevel = st.minimumLevel) ∧
    ((mkLogger openOk existing minLevel fn).fileIsOpen = openOk ∧
     (mkLogger openOk existing minLevel fn).minimumLevel = minLevel) := by
  refine ⟨?_, ⟨?_, ?_⟩, ⟨?_, ?_⟩, ⟨?_, ?_⟩, ⟨?_, ?_⟩, ⟨?_, ?_⟩, ⟨?_, ?_⟩,
    ⟨?_, ?_⟩, ⟨rfl, rfl⟩⟩
  · cases st.fileIsOpen
    · exact Or.inr rfl
    · exact Or.inl rfl
  all_goals first
    | exact log_fileIsOpen st now _ msg
    | exact log_minimumLevel st now _ msg
    | exact runLogs_fileIsOpen calls st
    | exact runLogs_minimumLevel calls st

/-- C4: failing to open the file leaves construction successful with exactly
one diagnostic line on the error stream (the log sinks get nothing at
construction), `log` never writes to the error stream, and a degraded
logger produces console output byte-identical to a logger whose file
opened, whatever its file held. -/
theorem claim_C4 (existing existing' : List Char) (minLevel : LogLevel)
    (fn : List Char) (calls : List (Tm × LogLevel × List Char)) :
    (mkLogger false existing minLevel fn).cerr
        = "Failed to open the log file : ".data ++ fn ++ ['\n'] ∧
    (mkLogger true existing minLevel fn).cerr = [] ∧
    (mkLogger false existing minLevel fn).console = [] ∧
    (mkLogger false existing minLevel fn).fileContents = existing ∧
    (∀ st : LoggerState, (runLogs st calls).cerr = st.cerr) ∧
    (runLogs (mkLogger false existing minLevel fn) calls).console
        = (runLogs (mkLogger true existing' minLevel fn) calls).console := by
  refine ⟨rfl, rfl, rfl, rfl, fun st => runLogs_cerr calls st, ?_⟩
  rw [runLogs_console, runLogs_console]
  rfl

/-- C7: construction opens the file in append mode and preserves a
pre-existing file's bytes; every `log` call and every sequence of calls
only appends to the file; running calls A on one instance and then calls
B on a second instance over the same file yields the original bytes, then
A's output, then B's output. -/
theorem claim_C7 (openOk : Bool) (existing : List Char) (minLevel minLevel2 : LogLevel)
    (fn fn2 : List Char) (callsA callsB : List (Tm × LogLevel × List Char)) :
    ((mkLogger openOk existing minLevel fn).fileContents = existing) ∧
    (∀ (st : LoggerState) (now : Tm) (level : LogLevel) (msg : List Char),
      ∃ suffix, (Logger.log st now level msg).fileContents
        = st.fileContents ++ suffix) ∧
    (∀ (st : LoggerState) (calls : List (Tm × LogLevel × List Char)),
      ∃ suffix, (runLogs st calls).fileContents = st.fileContents ++ suffix) ∧
    ((runLogs (mkLogger true
        (runLogs (mkLogger true existing minLevel fn) callsA).fileContents
        minLevel2 fn2) callsB).fileContents
      = existing ++ emitted minLevel callsA ++ emitted minLevel2 callsB) := by
  refine ⟨rfl, ?_, ?_, ?_⟩
  · intro st now level msg
    exact ⟨_, log_fileContents st now level msg⟩
  · intro st calls
    exact ⟨_, runLogs_fileContents calls st⟩
  · rw [runLogs_fileContents, runLogs_fileContents]
    rfl

/-- C3: an accepted call appends to the console, and byte-identically to the
file when open, exactly the line
"[timestamp][SEVERITYNAME]message" followed by a newline: the timestamp
is rendered as 19 characters "YYYY-MM-DD HH:MM:SS" (digits in the digit
positions), the severity tag is the upper-case enumerator name, and
nothing separates the closing bracket from the message. -/
theorem claim_C3 (st : LoggerState) (now : Tm) (level : LogLevel) (msg : List Char)
    (hacc : ¬ LogLevel.lt level st.minimumLevel)
    (hy1 : 1000 ≤ now.year) (hy2 : now.year < 10000) :
    (Logger.log st now level msg).console
        = st.console ++ (logEntry now level msg ++ ['\n']) ∧
    (st.fileIsOpen = true →
      (Logger.log st now level msg).fileContents
        = st.fileContents ++ (logEntry now level msg ++ ['\n'])) ∧
    logEntry now level msg
        = '[' :: (getCurrentTime now ++ (']' :: '[' :: (levelToString level ++ ']' :: msg))) ∧
    (∃ y1 y2 y3 y4 mo1 mo2 d1 d2 hh1 hh2 mi1 mi2 s1 s2 : Char,
      getCurrentTime now
          = [y1, y2, y3, y4, '-', mo1, mo2, '-', d1, d2, ' ',
             hh1, hh2, ':', mi1, mi2, ':', s1, s2] ∧
      ([y1, y2, y3, y4, mo1, mo2, d1, d2, hh1, hh2, mi1, mi2, s1, s2].all
          Char.isDigit) = true) ∧
    levelToString level ∈
      ["DEBUG".data, "INFO".data, "WARNING".data, "ERROR".data, "CRITICAL".data] := by
  refine ⟨?_, ?_, ?_, ?_, ?_⟩
  · rw [log_console, if_neg hacc]
  · intro hf
    rw [log_fileContents]
    simp [hf, hacc]
  · simp [logEntry]
  · refine ⟨digitChar (now.year / 1000), digitChar (now.year / 100),
      digitChar (now.year / 10), digitChar now.year,
      digitChar (now.month / 10), digitChar now.month,
      digitChar (now.day / 10), digitChar now.day,
      digitChar (now.hour / 10), digitChar now.hour,
      digitChar (now.minute / 10), digitChar now.minute,
      digitChar (now.sec / 10), digitChar now.sec, ?_, ?_⟩
    · rw [getCurrentTime, natChars_year now.year hy1 hy2]
      simp [pad2]
    · simp [digitChar_isDigit]
  · cases level <;> simp [levelToString, levelToStringSwitch, LogLevel.toNat]

/-- C3 witness: the format theorem applied to a concrete state, time, level
and message. -/
theorem claim_C3_witness :
    (¬ LogLevel.lt LogLevel.INFO sampleSt.minimumLevel) ∧ 1000 ≤ sampleTm.year ∧
      sampleTm.year < 10000 ∧
      ((Logger.log sampleSt sampleTm LogLevel.INFO "boot".data).console
          = sampleSt.console ++ (logEntry sampleTm LogLevel.INFO "boot".data ++ ['\n']) ∧
        (sampleSt.fileIsOpen = true →
          (Logger.log sampleSt sampleTm LogLevel.INFO "boot".data).fileContents
            = sampleSt.fileContents
                ++ (logEntry sampleTm LogLevel.INFO "boot".data ++ ['\n'])) ∧
        logEntry sampleTm LogLevel.INFO "boot".data
            = '[' :: (getCurrentTime sampleTm
                ++ (']' :: '[' :: (levelToString LogLevel.INFO ++ ']' :: "boot".data))) ∧
        (∃ y1 y2 y3 y4 mo1 mo2 d1 d2 hh1 hh2 mi1 mi2 s1 s2 : Char,
          getCurrentTime sampleTm
              = [y1, y2, y3, y4, '-', mo1, mo2, '-', d1, d2, ' ',
                 hh1, hh2, ':', mi1, mi2, ':', s1, s2] ∧
          ([y1, y2, y3, y4, mo1, mo2, d1, d2, hh1, hh2, mi1, mi2, s1, s2].all
              Char.isDigit) = true) ∧
        levelToString LogLevel.INFO ∈
          ["DEBUG".data, "INFO".data, "WARNING".data, "ERROR".data,
            "CRITICAL".data]) :=
  ⟨by decide, by decide, by decide,
    claim_C3 sampleSt sampleTm LogLevel.INFO "boot".data (by decide) (by decide)
      (by decide)⟩

/-! ## The driver (`main` and its helpers) -/

/-- The default log file name of `main`. -/
def defaultLogFilename : List Char := "myLogs.txt".data

/-- The argument handling of `main`: `argv[1]` when `argc > 1`, else the
default name. Arguments beyond the first are ignored. -/
def chooseLogFile (argv : List (List Char)) : List Char :=
  match argv with
  | _ :: a :: _ => a
  | _ => defaultLogFilename

/-- `numThreads` in `main`. -/
def numThreads : Nat := 5

/-- The sequence of calls issued by `SingleThreadLogging`. -/
def singleThreadCalls (logFilename : List Char) : List (LogLevel × List Char) :=
  [(LogLevel.INFO, "----- IN SINGLE THREAD LOGIC ------".data),
   (LogLevel.DEBUG, "This is debug message".data),
   (LogLevel.INFO, "Application started and logfile name is : ".data ++ logFilename),
   (LogLevel.WARNING, "Low memory condition detected".data),
   (LogLevel.ERROR, "Failed some where".data),
   (LogLevel.CRITICAL, "Crash detected".data),
   (LogLevel.INFO, "----- END SINGLE THREAD LOGIC ------".data)]

/-- The calls issued by `threadFunction` for thread id `tid`: five rounds of
an info message and a debug message. -/
def workerCalls (tid : Nat) : List (LogLevel × List Char) :=
  ((List.range 5).map fun i =>
    [(LogLevel.INFO, "Thread : ".data ++ natChars tid ++ " - Message ".data
        ++ natChars i),
     (LogLevel.DEBUG, "In threading debug - The thread is :".data ++ natChars tid)]).flatten

/-- The worker pool of `main`: `numThreads` workers with ids 1..numThreads,
all sharing the one logger state. -/
def mainPool : List (List (LogLevel × List Char)) :=
  (List.range numThreads).map fun i => workerCalls (i + 1)

/-- Run a list of calls sequentially; `times` gives the wall-clock reading of
the k-th logging call of the process, and the running index is threaded
through. -/
def runCalls (times : Nat → Tm) : Nat → LoggerState → List (LogLevel × List Char) →
    LoggerState × Nat
  | k, st, [] => (st, k)
  | k, st, (level, msg) :: rest =>
    runCalls times (k + 1) (Logger.log st (times k) level msg) rest

/-- The concurrent phase of `main` at the granularity of whole `log` calls
(each call is atomic relative to the others, which is what the mutex
 guarantees — proved at byte level on the interleaving machine): `sched`
names, in order, the worker that issues its next call; `none` when a
scheduled worker has nothing left. -/
def runSched (times : Nat → Tm) : Nat → LoggerState →
    List (List (LogLevel × List Char)) → List Nat →
    Option (LoggerState × List (List (LogLevel × List Char)))
  | _, st, pool, [] => some (st, pool)
  | k, st, pool, t :: rest =>
    match pool[t]? with
    | some ((level, msg) :: ps) =>
      runSched times (k + 1) (Logger.log st (times k) level msg) (pool.set t ps) rest
    | _ => none

/-- `main`: pick the log file from `argv`, construct one logger with
threshold DEBUG, run the single-thread demo, run the workers under the
scheduler, and only when every worker has finished (the join loop) log
the completion line, destroy the logger and return exit code 0. `env`
is the process environment; `main` never reads it. -/
def mainModel (argv : List (List Char)) (env : List (List Char × List Char))
    (openOk : Bool) (existing : List Char) (times : Nat → Tm) (sched : List Nat) :
    Option (Nat × LoggerState) :=
  let logFilename := chooseLogFile argv
  let st0 := mkLogger openOk existing LogLevel.DEBUG logFilename
  let p1 := runCalls times 0 st0 (singleThreadCalls logFilename)
  let p2 := runCalls times p1.2 p1.1
    [(LogLevel.INFO, "----- IN MULTI THREAD LOGIC -----".data)]
  match runSched times p2.2 p2.1 mainPool sched with
  | some (st3, pool) =>
    if pool.all List.isEmpty then
      some (0, Logger.destroy (runCalls times (p2.2 + sched.length) st3
        [(LogLevel.INFO, "------ ALL THREADS ARE COMPLETED ------".data)]).1)
    else none
  | none => none

/-- A schedule that lets worker 0 run to completion, then worker 1, etc. -/
def mainSchedSeq : List Nat :=
  ((List.range numThreads).map fun t => List.replicate (workerCalls (t + 1)).length t).flatten

theorem runSched_count (times : Nat → Tm) :
    ∀ (sched : List Nat) (k : Nat) (st : LoggerState)
      (pool : List (List (LogLevel × List Char))) (st' : LoggerState)
      (pool' : List (List (LogLevel × List Char))),
      runSched times k st pool sched = some (st', pool') →
      ∀ (t : Nat) (l l' : List (LogLevel × List Char)),
        pool[t]? = some l → pool'[t]? = some l' →
        l.length ≤ l'.length + sched.count t := by
  intro sched
  induction sched with
  | nil =>
    intro k st pool st' pool' h t l l' hl hl'
    rw [runSched] at h
    obtain ⟨rfl, rfl⟩ : st = st' ∧ pool = pool' := by
      have := Option.some.inj h
      exact ⟨congrArg Prod.fst this, congrArg Prod.snd this⟩
    rw [hl] at hl'
    simp [Option.some.inj hl']
  | cons u rest ih =>
    intro k st pool st' pool' h t l l' hl hl'
    rw [runSched] at h
    split at h
    · rename_i level msg ps hu
      by_cases htu : t = u
      · subst htu
        have hlt : t < pool.length := by
          by_contra hge
          rw [List.getElem?_eq_none (by omega)] at hu
          exact absurd hu (by simp)
        have hset : (pool.set t ps)[t]? = some ps := List.getElem?_set_self hlt
        have hrec := ih _ _ _ _ _ h t ps l' hset hl'
        rw [hl] at hu
        obtain rfl := Option.some.inj hu
        simp only [List.count_cons, List.length_cons, beq_self_eq_true, if_true]
        omega
      · have hset : (pool.set u ps)[t]? = some l := by
          rw [List.getElem?_set_ne (fun he => htu he.symm)]
          exact hl
        have hrec := ih _ _ _ _ _ h t l l' hset hl'
        simp only [List.count_cons, beq_iff_eq]
        have : ¬ (u = t) := fun he => htu he.symm
        simp only [this, if_false]
        omega
    · exact absurd h (by simp)

theorem runSched_length (times : Nat → Tm) :
    ∀ (sched : List Nat) (k : Nat) (st : LoggerState)
      (pool : List (List (LogLevel × List Char))) (st' : LoggerState)
      (pool' : List (List (LogLevel × List Char))),
      runSched times k st pool sched = some (st', pool') →
      pool'.length = pool.length := by
  intro sched
  induction sched with
  | nil =>
    intro k st pool st' pool' h
    rw [runSched] at h
    cases Option.some.inj h
    rfl
  | cons u rest ih =>
    intro k st pool st' pool' h
    rw [runSched] at h
    split at h
    · rename_i level msg ps hu
      rw [ih _ _ _ _ _ h, List.length_set]
    · exact absurd h (by simp)

/-- C9: the driver uses `argv[1]` as the log file when present (ignoring any
further arguments) and a fixed default otherwise, never reads the
environment, runs `numThreads = 5` workers against the one shared logger,
returns exit code 0 whenever it completes, and its join loop guarantees
that by destruction time every worker has issued all of its calls (the
schedule granted each worker enough turns to drain its list); the
sequential schedule is one complete run. -/
theorem claim_C9 (argv : List (List Char)) (env env' : List (List Char × List Char))
    (openOk : Bool) (existing : List Char) (times : Nat → Tm) (sched : List Nat)
    (prog a : List Char) (rest : List (List Char)) :
    chooseLogFile (prog :: a :: rest) = a ∧
    chooseLogFile [prog] = defaultLogFilename ∧
    chooseLogFile [] = defaultLogFilename ∧
    mainModel argv env openOk existing times sched
        = mainModel argv env' openOk existing times sched ∧
    (numThreads = 5 ∧ mainPool.length = numThreads) ∧
    (∀ r : Nat × LoggerState,
      mainModel argv env openOk existing times sched = some r → r.1 = 0) ∧
    (∀ r : Nat × LoggerState,
      mainModel argv env openOk existing times sched = some r →
      ∀ t : Nat, t < numThreads →
        (workerCalls (t + 1)).length ≤ sched.count t) ∧
    (mainModel [] [] true [] (fun _ => sampleTm) mainSchedSeq).isSome = true := by
  refine ⟨rfl, rfl, rfl, rfl, ⟨rfl, by rw [mainPool]; simp⟩, ?_, ?_, by decide⟩
  · intro r h
    simp only [mainModel] at h
    split at h
    · split at h
      · exact congrArg Prod.fst (Option.some.inj h).symm
      · exact absurd h (by simp)
    · exact absurd h (by simp)
  · intro r h t ht
    simp only [mainModel] at h
    split at h
    · rename_i st3 pool hrun
      split at h
      · rename_i hall
        have hpool : mainPool[t]? = some (workerCalls (t + 1)) := by
          rw [mainPool]
          rw [List.getElem?_map]
          rw [List.getElem?_range ht]
          rfl
        have hlen := runSched_length times sched _ _ _ _ _ hrun
        have hlt' : t < pool.length := by
          rw [hlen, mainPool]
          simpa using ht
        have hmem : pool[t]? = some pool[t] := List.getElem?_eq_getElem hlt'
        have hempty : pool[t] = [] := by
          have := List.all_eq_true.mp hall pool[t] (List.getElem_mem hlt')
          exact List.isEmpty_iff.mp this
        have := runSched_count times sched _ _ _ _ _ hrun t
          (workerCalls (t + 1)) pool[t] hpool hmem
        rw [hempty] at this
        simpa using this
      · exact absurd h (by simp)
    · exact absurd h (by simp)

/-! ## The mutual-exclusion invariant of the interleaving machine -/

theorem getElem?_some_lt {α : Type} {l : List α} {t : Nat} {w : α}
    (h : l[t]? = some w) : t < l.length := by
  by_contra hge
  rw [List.getElem?_eq_none (by omega)] at h
  exact absurd h (by simp)

theorem sum_map_set {α β : Type} [AddCommMonoid β] (f : α → β) :
    ∀ (l : List α) (t : Nat) (x w : α), l[t]? = some w →
      ((l.set t x).map f).sum + f w = (l.map f).sum + f x := by
  intro l
  induction l with
  | nil => intro t x w h; exact absurd h (by simp)
  | cons a l ih =>
    intro t x w h
    cases t with
    | zero =>
      simp only [List.getElem?_cons_zero] at h
      obtain rfl := Option.some.inj h
      simp only [List.set_cons_zero, List.map_cons, List.sum_cons]
      abel
    | succ t =>
      simp only [List.getElem?_cons_succ] at h
      simp only [List.set_cons_succ, List.map_cons, List.sum_cons]
      rw [add_assoc, add_assoc, ih t x w h]

theorem pendingPairs_cons_filtered {minLevel : LogLevel} {p : LogLevel × List Char}
    (ps : List (LogLevel × List Char)) (h : LogLevel.lt p.1 minLevel) :
    pendingPairs minLevel (p :: ps) = pendingPairs minLevel ps := by
  simp [pendingPairs, List.filter_cons, h]

theorem pendingPairs_cons_passing {minLevel : LogLevel} {p : LogLevel × List Char}
    (ps : List (LogLevel × List Char)) (h : ¬ LogLevel.lt p.1 minLevel) :
    pendingPairs minLevel (p :: ps) = p ::ₘ pendingPairs minLevel ps := by
  simp [pendingPairs, List.filter_cons, h, Multiset.cons_coe]

theorem pendingPairs_all_pass {minLevel : LogLevel} (ps : List (LogLevel × List Char))
    (h : ∀ p ∈ ps, ¬ LogLevel.lt p.1 minLevel) :
    pendingPairs minLevel ps = ↑ps := by
  unfold pendingPairs
  congr 1
  rw [List.filter_eq_self]
  intro p hp
  simp [h p hp]

theorem flatten_of_getLast {es : List Entry} {e : Entry} (h : es.getLast? = some e) :
    (es.map Entry.line).flatten = (es.dropLast.map Entry.line).flatten ++ e.line := by
  have hne : es ≠ [] := by
    intro h0
    rw [h0] at h
    exact absurd h (by simp)
  have hlast : es.getLast hne = e := by
    have := List.getLast?_eq_getLast es hne
    rw [h] at this
    exact (Option.some.inj this).symm
  conv_lhs => rw [← List.dropLast_concat_getLast hne]
  rw [List.map_append, List.flatten_append, hlast]
  simp

/-- The per-worker well-formedness of a writing phase relative to the list
`es` of lines completed on the console sink. -/
def PhaseOK (es : List Entry) : Phase → Prop
  | Phase.idle => True
  | Phase.wCon w r e => w ++ r = Entry.line e
  | Phase.wFile w r e => w ++ r = Entry.line e ∧ es.getLast? = some e

/-- The inductive invariant of the machine: mutual exclusion (only the lock
holder is inside the critical section), both sinks are a concatenation of
completed lines plus the lock holder's partial line, and the completed
and still-owed severity/message pairs account exactly for the initial
calls `init`. -/
structure InvAt (minLevel : LogLevel) (fileOpen : Bool)
    (init : Multiset (LogLevel × List Char)) (s : Sys) (es : List Entry) : Prop where
  lockNone : s.lock = none → ∀ (t : Nat) (w : Worker),
    s.workers[t]? = some w → w.phase = Phase.idle
  lockSome : ∀ t : Nat, s.lock = some t → ∃ w : Worker,
    s.workers[t]? = some w ∧ w.phase ≠ Phase.idle
  lockOthers : ∀ t : Nat, s.lock = some t → ∀ (u : Nat) (wu : Worker), u ≠ t →
    s.workers[u]? = some wu → wu.phase = Phase.idle
  conEq : s.console = (es.map Entry.line).flatten ++ (holderPhase s).conPart
  fileEq : fileOpen = true →
    s.file = ((if (holderPhase s).isWF then es.dropLast else es).map
        Entry.line).flatten ++ (holderPhase s).filePart
  fileClosed : fileOpen = false → s.file = [] ∧ (holderPhase s).isWF = false
  shape : ∀ (t : Nat) (w : Worker), s.workers[t]? = some w → PhaseOK es w.phase
  acct : ↑(es.map Entry.pair) + (s.workers.map (remConsole minLevel)).sum = init

theorem lock_of_writing {minLevel : LogLevel} {fileOpen : Bool}
    {init : Multiset (LogLevel × List Char)} {s : Sys} {es : List Entry}
    (hinv : InvAt minLevel fileOpen init s es) {t : Nat} {w : Worker}
    (hw : s.workers[t]? = some w) (hni : w.phase ≠ Phase.idle) :
    s.lock = some t := by
  cases hl : s.lock with
  | none => exact absurd (hinv.lockNone hl t w hw) hni
  | some t0 =>
    by_cases h : t0 = t
    · rw [h]
    · exact absurd (hinv.lockOthers t0 hl t w (fun he => h he.symm) hw) hni

theorem holderPhase_set_other {s : Sys} {t : Nat} {w : Worker}
    (hother : ∀ t0 : Nat, s.lock = some t0 → t0 ≠ t) :
    holderPhase (setWorker s t w) = holderPhase s := by
  have hlock : (setWorker s t w).lock = s.lock := rfl
  unfold holderPhase
  rw [hlock]
  cases hl : s.lock with
  | none => rfl
  | some t0 =>
    have hne : t0 ≠ t := hother t0 hl
    have hws : (setWorker s t w).workers[t0]? = s.workers[t0]? :=
      List.getElem?_set_ne (fun he => hne he.symm)
    show (match (setWorker s t w).workers[t0]? with
      | some u => u.phase
      | none => Phase.idle)
        = (match s.workers[t0]? with
      | some u => u.phase
      | none => Phase.idle)
    rw [hws]

theorem inv_skip {minLevel : LogLevel} {fileOpen : Bool}
    {init : Multiset (LogLevel × List Char)} {s : Sys} {es : List Entry}
    (hinv : InvAt minLevel fileOpen init s es) {t : Nat} {s' : Sys}
    (h : execStep minLevel fileOpen s (Act.skip t) = some s') :
    ∃ es' : List Entry, InvAt minLevel fileOpen init s' es' := by
  rw [execStep] at h
  split at h
  · rename_i level msg ps hw
    split at h
    · rename_i hf
      obtain rfl := Option.some.inj h
      have hlt : t < s.workers.length := getElem?_some_lt hw
      have hidle : (⟨Phase.idle, (level, msg) :: ps⟩ : Worker).phase = Phase.idle := rfl
      have hother : ∀ t0 : Nat, s.lock = some t0 → t0 ≠ t := by
        intro t0 hl he
        subst he
        obtain ⟨w0, hw0, hni⟩ := hinv.lockSome t0 hl
        rw [hw] at hw0
        obtain rfl := Option.some.inj hw0
        exact hni hidle
      have hget : ∀ u : Nat, u ≠ t →
          (setWorker s t ⟨Phase.idle, ps⟩).workers[u]? = s.workers[u]? := by
        intro u hu
        exact List.getElem?_set_ne (fun he => hu he.symm)
      have hgt : (setWorker s t ⟨Phase.idle, ps⟩).workers[t]?
          = some ⟨Phase.idle, ps⟩ := List.getElem?_set_self hlt
      have hhold := holderPhase_set_other (w := ⟨Phase.idle, ps⟩) hother
      refine ⟨es, ?_, ?_, ?_, ?_, ?_, ?_, ?_, ?_⟩
      · intro hl u w' hwu
        by_cases hu : u = t
        · subst hu
          rw [hgt] at hwu
          obtain rfl := Option.some.inj hwu
          rfl
        · rw [hget u hu] at hwu
          exact hinv.lockNone hl u w' hwu
      · intro t0 hl
        have hne := hother t0 hl
        obtain ⟨w0, hw0, hni⟩ := hinv.lockSome t0 hl
        exact ⟨w0, by rw [hget t0 hne]; exact hw0, hni⟩
      · intro t0 hl u wu hu hwu
        by_cases hut : u = t
        · subst hut
          rw [hgt] at hwu
          obtain rfl := Option.some.inj hwu
          rfl
        · rw [hget u hut] at hwu
          exact hinv.lockOthers t0 hl u wu hu hwu
      · show s.console = _
        rw [hinv.conEq, hhold]
      · intro hfo
        show s.file = _
        rw [hinv.fileEq hfo, hhold]
      · intro hfo
        rw [hhold]
        exact ⟨hinv.fileClosed hfo |>.1, hinv.fileClosed hfo |>.2⟩
      · intro u w' hwu
        by_cases hu : u = t
        · subst hu
          rw [hgt] at hwu
          obtain rfl := Option.some.inj hwu
          exact trivial
        · rw [hget u hu] at hwu
          exact hinv.shape u w' hwu
      · have hsum := sum_map_set (remConsole minLevel) s.workers t
          ⟨Phase.idle, ps⟩ ⟨Phase.idle, (level, msg) :: ps⟩ hw
        have heq : remConsole minLevel ⟨Phase.idle, (level, msg) :: ps⟩
            = remConsole minLevel ⟨Phase.idle, ps⟩ := by
          show pendingPairs minLevel ((level, msg) :: ps) = pendingPairs minLevel ps
          exact pendingPairs_cons_filtered ps hf
        rw [heq] at hsum
        have hsums := add_right_cancel hsum
        show ↑(es.map Entry.pair)
            + ((s.workers.set t ⟨Phase.idle, ps⟩).map (remConsole minLevel)).sum = init
        rw [hsums]
        exact hinv.acct
    · exact absurd h (by simp)
  · exact absurd h (by simp)

theorem holderPhase_none {s : Sys} (hl : s.lock = none) : holderPhase s = Phase.idle := by
  unfold holderPhase
  rw [hl]

theorem holderPhase_some {s : Sys} {t : Nat} {w : Worker} (hl : s.lock = some t)
    (hw : s.workers[t]? = some w) : holderPhase s = w.phase := by
  unfold holderPhase
  rw [hl]
  show (match s.workers[t]? with
    | some u => u.phase
    | none => Phase.idle) = w.phase
  rw [hw]

theorem inv_acquire {minLevel : LogLevel} {fileOpen : Bool}
    {init : Multiset (LogLevel × List Char)} {s : Sys} {es : List Entry}
    (hinv : InvAt minLevel fileOpen init s es) {t : Nat} {now : Tm} {s' : Sys}
    (h : execStep minLevel fileOpen s (Act.acquire t now) = some s') :
    ∃ es' : List Entry, InvAt minLevel fileOpen init s' es' := by
  rw [execStep] at h
  split at h
  · rename_i hln hw
    rename_i level msg ps
    split at h
    · exact absurd h (by simp)
    · rename_i hf
      obtain rfl := Option.some.inj h
      have hlt : t < s.workers.length := getElem?_some_lt hw
      set e : Entry := ⟨now, level, msg⟩ with he
      set nw : Worker := ⟨Phase.wCon [] (Entry.line e) e, ps⟩ with hnw
      have hgt : ({setWorker s t nw with lock := some t} : Sys).workers[t]?
          = some nw := List.getElem?_set_self hlt
      have hget : ∀ u : Nat, u ≠ t →
          ({setWorker s t nw with lock := some t} : Sys).workers[u]?
            = s.workers[u]? := by
        intro u hu
        exact List.getElem?_set_ne (fun hne => hu hne.symm)
      have hp1 : holderPhase s = Phase.idle := holderPhase_none hln
      have hp2 : holderPhase {setWorker s t nw with lock := some t}
          = Phase.wCon [] (Entry.line e) e := holderPhase_some rfl hgt
      refine ⟨es, ?_, ?_, ?_, ?_, ?_, ?_, ?_, ?_⟩
      · intro hl
        exact absurd hl (by simp)
      · intro t0 hl
        obtain rfl : t = t0 := Option.some.inj hl
        exact ⟨nw, hgt, fun hph => by simp [hnw] at hph⟩
      · intro t0 hl u wu hu hwu
        obtain rfl : t = t0 := Option.some.inj hl
        rw [hget u hu] at hwu
        exact hinv.lockNone hln u wu hwu
      · show s.console = _
        rw [hinv.conEq, hp1, hp2]
        rfl
      · intro hfo
        show s.file = _
        rw [hinv.fileEq hfo, hp1, hp2]
        rfl
      · intro hfo
        rw [hp2]
        exact ⟨(hinv.fileClosed hfo).1, rfl⟩
      · intro u wu hwu
        by_cases hu : u = t
        · subst hu
          rw [hgt] at hwu
          obtain rfl := Option.some.inj hwu
          show ([] : List Char) ++ Entry.line e = Entry.line e
          exact List.nil_append _
        · rw [hget u hu] at hwu
          exact hinv.shape u wu hwu
      · have hsum := sum_map_set (remConsole minLevel) s.workers t
          nw ⟨Phase.idle, (level, msg) :: ps⟩ hw
        have heq : remConsole minLevel ⟨Phase.idle, (level, msg) :: ps⟩
            = remConsole minLevel nw := by
          show pendingPairs minLevel ((level, msg) :: ps)
            = Entry.pair e ::ₘ pendingPairs minLevel ps
          exact pendingPairs_cons_passing ps hf
        rw [heq] at hsum
        have hsums := add_right_cancel hsum
        show ↑(es.map Entry.pair)
            + ((s.workers.set t nw).map (remConsole minLevel)).sum = init
        rw [hsums]
        exact hinv.acct
  · exact absurd h (by simp)

theorem inv_putc {minLevel : LogLevel} {fileOpen : Bool}
    {init : Multiset (LogLevel × List Char)} {s : Sys} {es : List Entry}
    (hinv : InvAt minLevel fileOpen init s es) {t : Nat} {s' : Sys}
    (h : execStep minLevel fileOpen s (Act.putc t) = some s') :
    ∃ es' : List Entry, InvAt minLevel fileOpen init s' es' := by
  rw [execStep] at h
  split at h
  · rename_i w c r e ps hw
    obtain rfl := Option.some.inj h
    have hlt : t < s.workers.length := getElem?_some_lt hw
    set nw : Worker := ⟨Phase.wCon (w ++ [c]) r e, ps⟩ with hnw
    have hlock : s.lock = some t :=
      lock_of_writing hinv hw (fun hph => by simp at hph)
    have hl' : ({setWorker s t nw with console := s.console ++ [c]} : Sys).lock
        = some t := hlock
    have hgt : ({setWorker s t nw with console := s.console ++ [c]} : Sys).workers[t]?
        = some nw := List.getElem?_set_self hlt
    have hget : ∀ u : Nat, u ≠ t →
        ({setWorker s t nw with console := s.console ++ [c]} : Sys).workers[u]?
          = s.workers[u]? := by
      intro u hu
      exact List.getElem?_set_ne (fun hne => hu hne.symm)
    have hp1 : holderPhase s = Phase.wCon w (c :: r) e := holderPhase_some hlock hw
    have hp2 : holderPhase {setWorker s t nw with console := s.console ++ [c]}
        = Phase.wCon (w ++ [c]) r e := holderPhase_some hl' hgt
    have hsh : w ++ c :: r = Entry.line e := hinv.shape t _ hw
    refine ⟨es, ?_, ?_, ?_, ?_, ?_, ?_, ?_, ?_⟩
    · intro hl
      have hl2 : s.lock = none := hl
      rw [hlock] at hl2
      exact absurd hl2 (by simp)
    · intro t0 hl
      have hl2 : s.lock = some t0 := hl
      rw [hlock] at hl2
      obtain rfl : t = t0 := Option.some.inj hl2
      exact ⟨nw, hgt, fun hph => by simp [hnw] at hph⟩
    · intro t0 hl u wu hu hwu
      have hl2 : s.lock = some t0 := hl
      rw [hlock] at hl2
      obtain rfl : t = t0 := Option.some.inj hl2
      rw [hget u hu] at hwu
      exact hinv.lockOthers t hlock u wu hu hwu
    · show s.console ++ [c] = _
      rw [hp2, hinv.conEq, hp1]
      show (List.map Entry.line es).flatten ++ w ++ [c]
        = (List.map Entry.line es).flatten ++ (w ++ [c])
      rw [List.append_assoc]
    · intro hfo
      show s.file = _
      rw [hp2, hinv.fileEq hfo, hp1]
      rfl
    · intro hfo
      rw [hp2]
      exact ⟨(hinv.fileClosed hfo).1, rfl⟩
    · intro u wu hwu
      by_cases hu : u = t
      · subst hu
        rw [hgt] at hwu
        obtain rfl := Option.some.inj hwu
        show (w ++ [c]) ++ r = Entry.line e
        rw [List.append_assoc]
        exact hsh
      · rw [hget u hu] at hwu
        exact hinv.shape u wu hwu
    · have hsum := sum_map_set (remConsole minLevel) s.workers t
        nw ⟨Phase.wCon w (c :: r) e, ps⟩ hw
      have heq : remConsole minLevel ⟨Phase.wCon w (c :: r) e, ps⟩
          = remConsole minLevel nw := rfl
      rw [heq] at hsum
      have hsums := add_right_cancel hsum
      show ↑(es.map Entry.pair)
          + ((s.workers.set t nw).map (remConsole minLevel)).sum = init
      rw [hsums]
      exact hinv.acct
  · exact absurd h (by simp)

theorem inv_tofile {minLevel : LogLevel} {fileOpen : Bool}
    {init : Multiset (LogLevel × List Char)} {s : Sys} {es : List Entry}
    (hinv : InvAt minLevel fileOpen init s es) {t : Nat} {s' : Sys}
    (h : execStep minLevel fileOpen s (Act.tofile t) = some s') :
    ∃ es' : List Entry, InvAt minLevel fileOpen init s' es' := by
  rw [execStep] at h
  split at h
  · rename_i w e ps hw
    split at h
    · rename_i hfo
      obtain rfl := Option.some.inj h
      have hlt : t < s.workers.length := getElem?_some_lt hw
      set nw : Worker := ⟨Phase.wFile [] (Entry.line e) e, ps⟩ with hnw
      have hlock : s.lock = some t :=
        lock_of_writing hinv hw (fun hph => by simp at hph)
      have hl' : (setWorker s t nw).lock = some t := hlock
      have hgt : (setWorker s t nw).workers[t]? = some nw :=
        List.getElem?_set_self hlt
      have hget : ∀ u : Nat, u ≠ t →
          (setWorker s t nw).workers[u]? = s.workers[u]? := by
        intro u hu
        exact List.getElem?_set_ne (fun hne => hu hne.symm)
      have hp1 : holderPhase s = Phase.wCon w [] e := holderPhase_some hlock hw
      have hp2 : holderPhase (setWorker s t nw)
          = Phase.wFile [] (Entry.line e) e := holderPhase_some hl' hgt
      have hsh : w ++ [] = Entry.line e := hinv.shape t _ hw
      have hw0 : w = Entry.line e := by simpa using hsh
      refine ⟨es ++ [e], ?_, ?_, ?_, ?_, ?_, ?_, ?_, ?_⟩
      · intro hl
        have hl2 : s.lock = none := hl
        rw [hlock] at hl2
        exact absurd hl2 (by simp)
      · intro t0 hl
        have hl2 : s.lock = some t0 := hl
        rw [hlock] at hl2
        obtain rfl : t = t0 := Option.some.inj hl2
        exact ⟨nw, hgt, fun hph => by simp [hnw] at hph⟩
      · intro t0 hl u wu hu hwu
        have hl2 : s.lock = some t0 := hl
        rw [hlock] at hl2
        obtain rfl : t = t0 := Option.some.inj hl2
        rw [hget u hu] at hwu
        exact hinv.lockOthers t hlock u wu hu hwu
      · show s.console = _
        rw [hp2, hinv.conEq, hp1]
        show (List.map Entry.line es).flatten ++ w
          = (List.map Entry.line (es ++ [e])).flatten ++ []
        rw [hw0, List.map_append, List.flatten_append]
        simp
      · intro hfo2
        show s.file = _
        rw [hp2, hinv.fileEq hfo2, hp1]
        show (List.map Entry.line es).flatten ++ []
          = (List.map Entry.line (if true = true then (es ++ [e]).dropLast else es ++ [e])).flatten ++ []
        rw [if_pos rfl, List.dropLast_concat]
      · intro hfo2
        rw [hfo2] at hfo
        exact absurd hfo (by simp)
      · intro u wu hwu
        by_cases hu : u = t
        · subst hu
          rw [hgt] at hwu
          obtain rfl := Option.some.inj hwu
          exact ⟨List.nil_append _, List.getLast?_concat es⟩
        · rw [hget u hu] at hwu
          have hidle := hinv.lockOthers t hlock u wu hu hwu
          show PhaseOK (es ++ [e]) wu.phase
          rw [hidle]
          exact trivial
      · have hsum := sum_map_set (remConsole minLevel) s.workers t
          nw ⟨Phase.wCon w [] e, ps⟩ hw
        have h1 : remConsole minLevel ⟨Phase.wCon w [] e, ps⟩
            = Entry.pair e ::ₘ remConsole minLevel nw := rfl
        rw [h1, ← Multiset.singleton_add, ← add_assoc] at hsum
        have hroll := add_right_cancel hsum
        show ↑((es ++ [e]).map Entry.pair)
            + ((s.workers.set t nw).map (remConsole minLevel)).sum = init
        rw [List.map_append, ← Multiset.coe_add]
        simp only [List.map_cons, List.map_nil, Multiset.coe_singleton]
        rw [add_assoc, add_comm ({Entry.pair e} : Multiset (LogLevel × List Char)) _,
          hroll]
        exact hinv.acct
    · exact absurd h (by simp)
  · exact absurd h (by simp)

theorem inv_putf {minLevel : LogLevel} {fileOpen : Bool}
    {init : Multiset (LogLevel × List Char)} {s : Sys} {es : List Entry}
    (hinv : InvAt minLevel fileOpen init s es) {t : Nat} {s' : Sys}
    (h : execStep minLevel fileOpen s (Act.putf t) = some s') :
    ∃ es' : List Entry, InvAt minLevel fileOpen init s' es' := by
  rw [execStep] at h
  split at h
  · rename_i w c r e ps hw
    obtain rfl := Option.some.inj h
    have hlt : t < s.workers.length := getElem?_some_lt hw
    set nw : Worker := ⟨Phase.wFile (w ++ [c]) r e, ps⟩ with hnw
    have hlock : s.lock = some t :=
      lock_of_writing hinv hw (fun hph => by simp at hph)
    have hl' : ({setWorker s t nw with file := s.file ++ [c]} : Sys).lock
        = some t := hlock
    have hgt : ({setWorker s t nw with file := s.file ++ [c]} : Sys).workers[t]?
        = some nw := List.getElem?_set_self hlt
    have hget : ∀ u : Nat, u ≠ t →
        ({setWorker s t nw with file := s.file ++ [c]} : Sys).workers[u]?
          = s.workers[u]? := by
      intro u hu
      exact List.getElem?_set_ne (fun hne => hu hne.symm)
    have hp1 : holderPhase s = Phase.wFile w (c :: r) e := holderPhase_some hlock hw
    have hp2 : holderPhase {setWorker s t nw with file := s.file ++ [c]}
        = Phase.wFile (w ++ [c]) r e := holderPhase_some hl' hgt
    have hsh := hinv.shape t _ hw
    obtain ⟨hline, hlast⟩ :
        w ++ c :: r = Entry.line e ∧ es.getLast? = some e := hsh
    refine ⟨es, ?_, ?_, ?_, ?_, ?_, ?_, ?_, ?_⟩
    · intro hl
      have hl2 : s.lock = none := hl
      rw [hlock] at hl2
      exact absurd hl2 (by simp)
    · intro t0 hl
      have hl2 : s.lock = some t0 := hl
      rw [hlock] at hl2
      obtain rfl : t = t0 := Option.some.inj hl2
      exact ⟨nw, hgt, fun hph => by simp [hnw] at hph⟩
    · intro t0 hl u wu hu hwu
      have hl2 : s.lock = some t0 := hl
      rw [hlock] at hl2
      obtain rfl : t = t0 := Option.some.inj hl2
      rw [hget u hu] at hwu
      exact hinv.lockOthers t hlock u wu hu hwu
    · show s.console = _
      rw [hp2, hinv.conEq, hp1]
      rfl
    · intro hfo
      show s.file ++ [c] = _
      rw [hp2, hinv.fileEq hfo, hp1]
      show (List.map Entry.line es.dropLast).flatten ++ w ++ [c]
        = (List.map Entry.line es.dropLast).flatten ++ (w ++ [c])
      rw [List.append_assoc]
    · intro hfo
      have h2 := (hinv.fileClosed hfo).2
      rw [hp1] at h2
      simp [Phase.isWF] at h2
    · intro u wu hwu
      by_cases hu : u = t
      · subst hu
        rw [hgt] at hwu
        obtain rfl := Option.some.inj hwu
        refine ⟨?_, hlast⟩
        show (w ++ [c]) ++ r = Entry.line e
        rw [List.append_assoc]
        exact hline
      · rw [hget u hu] at hwu
        exact hinv.shape u wu hwu
    · have hsum := sum_map_set (remConsole minLevel) s.workers t
        nw ⟨Phase.wFile w (c :: r) e, ps⟩ hw
      have heq : remConsole minLevel ⟨Phase.wFile w (c :: r) e, ps⟩
          = remConsole minLevel nw := rfl
      rw [heq] at hsum
      have hsums := add_right_cancel hsum
      show ↑(es.map Entry.pair)
          + ((s.workers.set t nw).map (remConsole minLevel)).sum = init
      rw [hsums]
      exact hinv.acct
  · exact absurd h (by simp)

theorem inv_release {minLevel : LogLevel} {fileOpen : Bool}
    {init : Multiset (LogLevel × List Char)} {s : Sys} {es : List Entry}
    (hinv : InvAt minLevel fileOpen init s es) {t : Nat} {s' : Sys}
    (h : execStep minLevel fileOpen s (Act.release t) = some s') :
    ∃ es' : List Entry, InvAt minLevel fileOpen init s' es' := by
  rw [execStep] at h
  split at h
  · -- wCon with the file sink closed: the critical section ends here
    rename_i w e ps hw
    split at h
    · exact absurd h (by simp)
    · rename_i hnfo
      have hfo : fileOpen = false := by
        revert hnfo
        cases fileOpen <;> simp
      obtain rfl := Option.some.inj h
      have hlt : t < s.workers.length := getElem?_some_lt hw
      set nw : Worker := ⟨Phase.idle, ps⟩ with hnw
      have hlock : s.lock = some t :=
        lock_of_writing hinv hw (fun hph => by simp at hph)
      have hgt : ({setWorker s t nw with lock := none} : Sys).workers[t]?
          = some nw := List.getElem?_set_self hlt
      have hget : ∀ u : Nat, u ≠ t →
          ({setWorker s t nw with lock := none} : Sys).workers[u]?
            = s.workers[u]? := by
        intro u hu
        exact List.getElem?_set_ne (fun hne => hu hne.symm)
      have hp1 : holderPhase s = Phase.wCon w [] e := holderPhase_some hlock hw
      have hp2 : holderPhase ({setWorker s t nw with lock := none} : Sys)
          = Phase.idle := holderPhase_none rfl
      have hsh : w ++ [] = Entry.line e := hinv.shape t _ hw
      have hw0 : w = Entry.line e := by simpa using hsh
      refine ⟨es ++ [e], ?_, ?_, ?_, ?_, ?_, ?_, ?_, ?_⟩
      · intro hl u wu hwu
        by_cases hu : u = t
        · subst hu
          rw [hgt] at hwu
          obtain rfl := Option.some.inj hwu
          rfl
        · rw [hget u hu] at hwu
          exact hinv.lockOthers t hlock u wu hu hwu
      · intro t0 hl
        exact absurd hl (by simp)
      · intro t0 hl
        exact absurd hl (by simp)
      · show s.console = _
        rw [hp2, hinv.conEq, hp1]
        show (List.map Entry.line es).flatten ++ w
          = (List.map Entry.line (es ++ [e])).flatten ++ []
        rw [hw0, List.map_append, List.flatten_append]
        simp
      · intro hfo2
        rw [hfo] at hfo2
        exact absurd hfo2 (by simp)
      · intro hfo2
        rw [hp2]
        exact ⟨(hinv.fileClosed hfo2).1, rfl⟩
      · intro u wu hwu
        by_cases hu : u = t
        · subst hu
          rw [hgt] at hwu
          obtain rfl := Option.some.inj hwu
          exact trivial
        · rw [hget u hu] at hwu
          have hidle := hinv.lockOthers t hlock u wu hu hwu
          show PhaseOK (es ++ [e]) wu.phase
          rw [hidle]
          exact trivial
      · have hsum := sum_map_set (remConsole minLevel) s.workers t
          nw ⟨Phase.wCon w [] e, ps⟩ hw
        have h1 : remConsole minLevel ⟨Phase.wCon w [] e, ps⟩
            = Entry.pair e ::ₘ remConsole minLevel nw := rfl
        rw [h1, ← Multiset.singleton_add, ← add_assoc] at hsum
        have hroll := add_right_cancel hsum
        show ↑((es ++ [e]).map Entry.pair)
            + ((s.workers.set t nw).map (remConsole minLevel)).sum = init
        rw [List.map_append, ← Multiset.coe_add]
        simp only [List.map_cons, List.map_nil, Multiset.coe_singleton]
        rw [add_assoc, add_comm ({Entry.pair e} : Multiset (LogLevel × List Char)) _,
          hroll]
        exact hinv.acct
  · -- wFile: both sinks done, leave the critical section
    rename_i w e ps hw
    obtain rfl := Option.some.inj h
    have hlt : t < s.workers.length := getElem?_some_lt hw
    set nw : Worker := ⟨Phase.idle, ps⟩ with hnw
    have hlock : s.lock = some t :=
      lock_of_writing hinv hw (fun hph => by simp at hph)
    have hgt : ({setWorker s t nw with lock := none} : Sys).workers[t]?
        = some nw := List.getElem?_set_self hlt
    have hget : ∀ u : Nat, u ≠ t →
        ({setWorker s t nw with lock := none} : Sys).workers[u]?
          = s.workers[u]? := by
      intro u hu
      exact List.getElem?_set_ne (fun hne => hu hne.symm)
    have hp1 : holderPhase s = Phase.wFile w [] e := holderPhase_some hlock hw
    have hp2 : holderPhase ({setWorker s t nw with lock := none} : Sys)
        = Phase.idle := holderPhase_none rfl
    have hsh := hinv.shape t _ hw
    obtain ⟨hline, hlast⟩ : w ++ [] = Entry.line e ∧ es.getLast? = some e := hsh
    have hw0 : w = Entry.line e := by simpa using hline
    refine ⟨es, ?_, ?_, ?_, ?_, ?_, ?_, ?_, ?_⟩
    · intro hl u wu hwu
      by_cases hu : u = t
      · subst hu
        rw [hgt] at hwu
        obtain rfl := Option.some.inj hwu
        rfl
      · rw [hget u hu] at hwu
        exact hinv.lockOthers t hlock u wu hu hwu
    · intro t0 hl
      exact absurd hl (by simp)
    · intro t0 hl
      exact absurd hl (by simp)
    · show s.console = _
      rw [hp2, hinv.conEq, hp1]
      rfl
    · intro hfo
      show s.file = _
      rw [hp2, hinv.fileEq hfo, hp1]
      show (List.map Entry.line es.dropLast).flatten ++ w
        = (List.map Entry.line es).flatten ++ []
      rw [hw0, List.append_nil, flatten_of_getLast hlast]
    · intro hfo
      have h2 := (hinv.fileClosed hfo).2
      rw [hp1] at h2
      simp [Phase.isWF] at h2
    · intro u wu hwu
      by_cases hu : u = t
      · subst hu
        rw [hgt] at hwu
        obtain rfl := Option.some.inj hwu
        exact trivial
      · rw [hget u hu] at hwu
        exact hinv.shape u wu hwu
    · have hsum := sum_map_set (remConsole minLevel) s.workers t
        nw ⟨Phase.wFile w [] e, ps⟩ hw
      have heq : remConsole minLevel ⟨Phase.wFile w [] e, ps⟩
          = remConsole minLevel nw := rfl
      rw [heq] at hsum
      have hsums := add_right_cancel hsum
      show ↑(es.map Entry.pair)
          + ((s.workers.set t nw).map (remConsole minLevel)).sum = init
      rw [hsums]
      exact hinv.acct
  · exact absurd h (by simp)

theorem inv_step {minLevel : LogLevel} {fileOpen : Bool}
    {init : Multiset (LogLevel × List Char)} {s : Sys} {es : List Entry}
    (hinv : InvAt minLevel fileOpen init s es) {a : Act} {s' : Sys}
    (h : execStep minLevel fileOpen s a = some s') :
    ∃ es' : List Entry, InvAt minLevel fileOpen init s' es' := by
  cases a with
  | skip t => exact inv_skip hinv h
  | acquire t now => exact inv_acquire hinv h
  | putc t => exact inv_putc hinv h
  | tofile t => exact inv_tofile hinv h
  | putf t => exact inv_putf hinv h
  | release t => exact inv_release hinv h

theorem inv_init (minLevel : LogLevel) (fileOpen : Bool)
    (pendings : List (List (LogLevel × List Char))) :
    InvAt minLevel fileOpen ((pendings.map (pendingPairs minLevel)).sum)
      (sysInit pendings) [] := by
  have hwon : ∀ (t : Nat) (w : Worker),
      (sysInit pendings).workers[t]? = some w → w.phase = Phase.idle := by
    intro t w hw
    have hw2 : (pendings.map fun ps => (⟨Phase.idle, ps⟩ : Worker))[t]? = some w := hw
    rw [List.getElem?_map] at hw2
    cases hp : pendings[t]? with
    | none => rw [hp] at hw2; exact absurd hw2 (by simp)
    | some ps =>
      rw [hp] at hw2
      obtain rfl := Option.some.inj hw2
      rfl
  refine ⟨?_, ?_, ?_, ?_, ?_, ?_, ?_, ?_⟩
  · intro _ t w hw
    exact hwon t w hw
  · intro t hl
    exact absurd hl (by simp [sysInit])
  · intro t hl
    exact absurd hl (by simp [sysInit])
  · show ([] : List Char) = _
    rw [holderPhase_none rfl]
    rfl
  · intro _
    show ([] : List Char) = _
    rw [holderPhase_none rfl]
    rfl
  · intro _
    refine ⟨rfl, ?_⟩
    rw [holderPhase_none rfl]
    rfl
  · intro t w hw
    rw [hwon t w hw]
    exact trivial
  · show ↑(([] : List Entry).map Entry.pair)
        + (((pendings.map fun ps => (⟨Phase.idle, ps⟩ : Worker))).map
            (remConsole minLevel)).sum
      = (pendings.map (pendingPairs minLevel)).sum
    rw [List.map_map]
    simp only [List.map_nil, Multiset.coe_nil, zero_add]
    rfl

theorem inv_trace (minLevel : LogLevel) (fileOpen : Bool)
    (init : Multiset (LogLevel × List Char)) :
    ∀ (tr : List Act) (s s' : Sys),
      execTrace minLevel fileOpen s tr = some s' →
      (∃ es : List Entry, InvAt minLevel fileOpen init s es) →
      ∃ es' : List Entry, InvAt minLevel fileOpen init s' es' := by
  intro tr
  induction tr with
  | nil =>
    intro s s' h hinv
    rw [execTrace] at h
    obtain rfl := Option.some.inj h
    exact hinv
  | cons a tr ih =>
    intro s s' h hinv
    rw [execTrace] at h
    split at h
    · rename_i s1 hstep
      obtain ⟨es, he⟩ := hinv
      exact ih s1 s' h (inv_step he hstep)
    · exact absurd h (by simp)

theorem multiset_card_sum {α : Type} :
    ∀ l : List (Multiset α), l.sum.card = (l.map Multiset.card).sum := by
  intro l
  induction l with
  | nil => simp
  | cons a l ih => simp [ih]

theorem mem_list_sum {α : Type} {x : α} :
    ∀ l : List (Multiset α), x ∈ l.sum → ∃ m ∈ l, x ∈ m := by
  intro l
  induction l with
  | nil => intro h; simp at h
  | cons a l ih =>
    intro h
    rw [List.sum_cons, Multiset.mem_add] at h
    rcases h with h | h
    · exact ⟨a, List.mem_cons_self a l, h⟩
    · obtain ⟨m, hm, hx⟩ := ih h
      exact ⟨m, List.mem_cons_of_mem a hm, hx⟩

theorem list_sum_map_const {α : Type} (v : Nat) :
    ∀ (l : List α) (f : α → Nat), (∀ x ∈ l, f x = v) →
      (l.map f).sum = l.length * v := by
  intro l
  induction l with
  | nil => intro f _; simp
  | cons a l ih =>
    intro f h
    rw [List.map_cons, List.sum_cons, h a (List.mem_cons_self a l),
      ih f (fun x hx => h x (List.mem_cons_of_mem a hx)), List.length_cons]
    ring

theorem list_sum_zero {α : Type} [AddCommMonoid α] :
    ∀ l : List α, (∀ x ∈ l, x = 0) → l.sum = 0 := by
  intro l
  induction l with
  | nil => intro _; rfl
  | cons a l ih =>
    intro h
    rw [List.sum_cons, h a (List.mem_cons_self a l),
      ih (fun x hx => h x (List.mem_cons_of_mem a hx)), add_zero]

theorem count_flatten_ones {es : List Entry}
    (h : ∀ e ∈ es, (Entry.line e).count '\n' = 1) :
    ((es.map Entry.line).flatten).count '\n' = es.length := by
  induction es with
  | nil => rfl
  | cons e es ih =>
    rw [List.map_cons, List.flatten_cons, List.count_append,
      h e (List.mem_cons_self e es),
      ih (fun x hx => h x (List.mem_cons_of_mem e hx)), List.length_cons]
    omega

theorem card_sum_ofList {α : Type} {M : Nat} :
    ∀ pendings : List (List α), (∀ ps ∈ pendings, ps.length = M) →
      (pendings.map Multiset.ofList).sum.card = pendings.length * M := by
  intro pendings
  induction pendings with
  | nil => intro _; simp
  | cons ps rest ih =>
    intro h
    rw [List.map_cons, List.sum_cons, Multiset.card_add, Multiset.coe_card,
      h ps (List.mem_cons_self ps rest),
      ih (fun x hx => h x (List.mem_cons_of_mem ps hx)), List.length_cons]
    ring

/-- C1: with the file sink open, any complete interleaved execution in which
N workers each issue M calls that pass the severity filter (messages free
of newlines) leaves both sinks equal to a concatenation of exactly N*M
complete newline-terminated formatted lines — one per call, with the
multiset of (severity, message) pairs of the emitted lines exactly the
multiset of the issued calls — and no partial or interleaved fragment:
every byte of every line was written under the lock acquired by its
call. -/
theorem claim_C1 (N M : Nat) (pendings : List (List (LogLevel × List Char)))
    (minLevel : LogLevel) (tr : List Act) (s : Sys)
    (hN : pendings.length = N)
    (hM : ∀ ps ∈ pendings, ps.length = M)
    (hpass : ∀ ps ∈ pendings, ∀ p ∈ ps, ¬ LogLevel.lt p.1 minLevel)
    (hnl : ∀ ps ∈ pendings, ∀ p ∈ ps, '\n' ∉ p.2)
    (hrun : execTrace minLevel true (sysInit pendings) tr = some s)
    (hfin : sysFinished s = true) :
    ∃ es : List Entry,
      s.console = (es.map Entry.line).flatten ∧
      s.file = s.console ∧
      es.length = N * M ∧
      (∀ e ∈ es, ¬ LogLevel.lt e.level minLevel) ∧
      s.console.count '\n' = N * M ∧
      s.file.count '\n' = N * M ∧
      Multiset.ofList (es.map Entry.pair)
        = (pendings.map Multiset.ofList).sum := by
  obtain ⟨es, hinv⟩ := inv_trace minLevel true
    ((pendings.map (pendingPairs minLevel)).sum) tr (sysInit pendings) s hrun
    ⟨[], inv_init minLevel true pendings⟩
  have hfinw : ∀ w ∈ s.workers, w.phase = Phase.idle ∧ w.pending = [] := by
    intro w hw
    have hall := List.all_eq_true.mp hfin w hw
    rw [Bool.and_eq_true] at hall
    exact ⟨of_decide_eq_true hall.1, of_decide_eq_true hall.2⟩
  have hlock : s.lock = none := by
    cases hl : s.lock with
    | none => rfl
    | some t =>
      obtain ⟨w, hw, hni⟩ := hinv.lockSome t hl
      exact absurd (hfinw w (List.getElem?_mem hw)).1 hni
  have hhold := holderPhase_none hlock
  have hcon : s.console = (es.map Entry.line).flatten := by
    rw [hinv.conEq, hhold]
    simp [Phase.conPart]
  have hfile : s.file = (es.map Entry.line).flatten := by
    rw [hinv.fileEq rfl, hhold]
    simp [Phase.isWF, Phase.filePart]
  have hsum0 : ((s.workers.map (remConsole minLevel))).sum = 0 := by
    apply list_sum_zero
    intro x hx
    obtain ⟨w, hw, rfl⟩ := List.mem_map.mp hx
    obtain ⟨ph, pd⟩ := w
    obtain ⟨hph, hpd⟩ := hfinw ⟨ph, pd⟩ hw
    simp only at hph hpd
    subst hph
    subst hpd
    rfl
  have hpairs : Multiset.ofList (es.map Entry.pair)
      = (pendings.map Multiset.ofList).sum := by
    have h1 := hinv.acct
    rw [hsum0, add_zero] at h1
    rw [h1]
    congr 1
    apply List.map_congr_left
    intro ps hps
    exact pendingPairs_all_pass ps (hpass ps hps)
  have hmem : ∀ e ∈ es, ∃ ps ∈ pendings, Entry.pair e ∈ ps := by
    intro e he
    have h1 : Entry.pair e ∈ Multiset.ofList (es.map Entry.pair) :=
      Multiset.mem_coe.mpr (List.mem_map.mpr ⟨e, he, rfl⟩)
    rw [hpairs] at h1
    obtain ⟨m, hm, hx⟩ := mem_list_sum _ h1
    obtain ⟨ps, hps, rfl⟩ := List.mem_map.mp hm
    exact ⟨ps, hps, Multiset.mem_coe.mp hx⟩
  have hepass : ∀ e ∈ es, ¬ LogLevel.lt e.level minLevel := by
    intro e he
    obtain ⟨ps, hps, hp⟩ := hmem e he
    exact hpass ps hps (Entry.pair e) hp
  have henl : ∀ e ∈ es, '\n' ∉ e.msg := by
    intro e he
    obtain ⟨ps, hps, hp⟩ := hmem e he
    exact hnl ps hps (Entry.pair e) hp
  have hlen : es.length = N * M := by
    have hc := congrArg Multiset.card hpairs
    rw [Multiset.coe_card, List.length_map, card_sum_ofList pendings hM, hN] at hc
    exact hc
  have hcount : ((es.map Entry.line).flatten).count '\n' = N * M := by
    rw [count_flatten_ones (fun e he => line_count_newline e (henl e he)), hlen]
  refine ⟨es, hcon, by rw [hfile, hcon], hlen, hepass, ?_, ?_, hpairs⟩
  · rw [hcon]
    exact hcount
  · rw [hfile]
    exact hcount

/-- A concrete complete interleaving: worker 0 writes its whole line, then
worker 1. -/
def c1tr : List Act :=
  [Act.acquire 0 sampleTm] ++ List.replicate 29 (Act.putc 0) ++ [Act.tofile 0]
    ++ List.replicate 29 (Act.putf 0) ++ [Act.release 0]
    ++ [Act.acquire 1 sampleTm] ++ List.replicate 29 (Act.putc 1) ++ [Act.tofile 1]
    ++ List.replicate 29 (Act.putf 1) ++ [Act.release 1]

/-- The final state of `c1tr`. -/
def c1sys : Sys :=
  { lock := none
    console := "[2024-01-02 03:04:05][INFO]a\n[2024-01-02 03:04:05][INFO]b\n".data
    file := "[2024-01-02 03:04:05][INFO]a\n[2024-01-02 03:04:05][INFO]b\n".data
    workers := [⟨Phase.idle, []⟩, ⟨Phase.idle, []⟩] }

/-- C1 witness: the atomicity theorem applied to a concrete complete run of
two workers with one accepted call each. -/
theorem claim_C1_witness :
    execTrace LogLevel.DEBUG true
        (sysInit [[(LogLevel.INFO, "a".data)], [(LogLevel.INFO, "b".data)]]) c1tr
      = some c1sys ∧
    sysFinished c1sys = true ∧
    (∃ es : List Entry,
      c1sys.console = (es.map Entry.line).flatten ∧
      c1sys.file = c1sys.console ∧
      es.length = 2 * 1 ∧
      (∀ e ∈ es, ¬ LogLevel.lt e.level LogLevel.DEBUG) ∧
      c1sys.console.count '\n' = 2 * 1 ∧
      c1sys.file.count '\n' = 2 * 1 ∧
      Multiset.ofList (es.map Entry.pair)
        = ([[(LogLevel.INFO, "a".data)], [(LogLevel.INFO, "b".data)]].map
            Multiset.ofList).sum) :=
  ⟨by decide, by decide,
    claim_C1 2 1 [[(LogLevel.INFO, "a".data)], [(LogLevel.INFO, "b".data)]]
      LogLevel.DEBUG c1tr c1sys rfl (by decide) (by decide) (by decide)
      (by decide) (by decide)⟩
